import Mathlib

/-!
# Verification of the `scc` concurrent `HashMap` core

A shallow embedding of the sequential (quiescent, single-caller) behaviour of
`src/hash_map.rs` and `src/map/array.rs` from the
`scalable-concurrent-containers` repository, together with proofs about the
embedded definitions.

Conventions:
* `usize` is modelled as `Nat` with the 64-bit bound made explicit where the
  source's arithmetic can reach it (`usizeMax = 2 ^ 64 - 1`).
* `ARRAY_SIZE` (the number of entries per `Cell`, declared in `cell.rs`) is 32.
* Stateful methods become pure functions from an explicit state; the calls the
  method makes to `self.resize` are recorded as a `Bool` field of the result.
-/

namespace Scc

/-- `usize::MAX` on a 64-bit platform. -/
def usizeMax : Nat := 2 ^ 64 - 1

/-- `std::mem::size_of::<usize>() * 8` on a 64-bit platform. -/
def usizeBits : Nat := 64

/-- `ARRAY_SIZE`: the number of entries managed by one `Cell` (32). -/
def arraySize : Nat := 32

/-- Fuelled floor of the base-2 logarithm; `usizeBits` fuel is enough for any
64-bit value, and the fuel makes the definition structurally recursive. -/
def floorLog2Aux : Nat → Nat → Nat
  | 0, _ => 0
  | fuel + 1, n => if n ≤ 1 then 0 else floorLog2Aux fuel (n / 2) + 1

/-- Floor of the base-2 logarithm of a 64-bit value. -/
def floorLog2 (n : Nat) : Nat := floorLog2Aux usizeBits n

/-- `usize::leading_zeros` on a 64-bit platform. -/
def leadingZeros (n : Nat) : Nat :=
  if n = 0 then usizeBits else usizeBits - 1 - floorLog2 n

/-- `usize::next_power_of_two` (total for arguments below `2 ^ 63`, the only
range the embedded code applies it to). -/
def nextPowerOfTwo (n : Nat) : Nat :=
  if n ≤ 1 then 1 else 2 ^ (floorLog2 (n - 1) + 1)

/-- `adjusted_capacity` in `Array::calculate_lb_metadata_array_size`
(src/map/array.rs): the requested capacity clamped to
`usize::MAX / 2 - (ARRAY_SIZE - 1)`. -/
def adjusted_capacity (capacity : Nat) : Nat :=
  min capacity (usizeMax / 2 - (arraySize - 1))

/-- `required_cells` in `Array::calculate_lb_metadata_array_size`
(src/map/array.rs). -/
def required_cells (capacity : Nat) : Nat :=
  nextPowerOfTwo ((adjusted_capacity capacity + (arraySize - 1)) / arraySize)

/-- `Array::calculate_lb_metadata_array_size` (src/map/array.rs): the base-2
logarithm of the number of cells allocated for a requested capacity. -/
def calculate_lb_metadata_array_size (capacity : Nat) : Nat :=
  max (usizeBits - leadingZeros (required_cells capacity) - 1) 1

/-- `Array::num_cells` (src/map/array.rs): `1 << lb_capacity`. -/
def num_cells (lb : Nat) : Nat := 2 ^ lb

/-- `Array::calculate_metadata_array_index` (src/map/array.rs):
`hash >> (64 - lb_capacity)` for a 64-bit hash. -/
def calculate_metadata_array_index (lb hash : Nat) : Nat :=
  hash >>> (usizeBits - lb)

/-- The number of entry slots of an array built for a requested capacity:
cell count times `ARRAY_SIZE`. `CellArray::num_entries` is declared in
`cell_array.rs` (not under src/); per the spec a `Cell` manages 32 entries, so
the slot count is `2 ^ lb * 32` with `lb` from
`calculate_lb_metadata_array_size` (src/map/array.rs). -/
def num_entries_of (capacity : Nat) : Nat :=
  num_cells (calculate_lb_metadata_array_size capacity) * arraySize

/-- Modelled from the spec: `HashTable::default_capacity` lives in
`hash_table.rs`, which is not under src/; the spec fixes the default capacity
at 64. -/
def default_capacity : Nat := 64

/-- `HashMap::new` (src/hash_map.rs): the capacity reported by
`capacity()` for a map built with the requested capacity, i.e. the entry count
of an array built for `max capacity default_capacity`. -/
def new_capacity (capacity : Nat) : Nat :=
  num_entries_of (max capacity default_capacity)

/-- `HashMap::default` (src/hash_map.rs): the capacity reported by a
default-constructed map, built for `default_capacity`. -/
def default_map_capacity : Nat := num_entries_of default_capacity

/-! ## Arithmetic facts about the fuelled logarithm -/

theorem floorLog2Aux_lt (fuel : Nat) :
    ∀ n : Nat, n < 2 ^ fuel → n < 2 ^ (floorLog2Aux fuel n + 1) := by
  induction fuel with
  | zero =>
    intro n hn
    simp [floorLog2Aux]
    omega
  | succ fuel ih =>
    intro n hn
    by_cases h1 : n ≤ 1
    · simp [floorLog2Aux, h1]
      omega
    · have hdiv : n / 2 < 2 ^ fuel := by
        rw [Nat.div_lt_iff_lt_mul (by omega : 0 < 2)]
        calc n < 2 ^ (fuel + 1) := hn
          _ = 2 ^ fuel * 2 := by rw [Nat.pow_succ]
      have := ih (n / 2) hdiv
      simp only [floorLog2Aux, h1, if_false]
      have h2 : n ≤ 2 * (n / 2) + 1 := by omega
      calc n ≤ 2 * (n / 2) + 1 := h2
        _ < 2 * 2 ^ (floorLog2Aux fuel (n / 2) + 1) := by omega
        _ = 2 ^ (floorLog2Aux fuel (n / 2) + 1 + 1) := by
            rw [Nat.pow_succ]; ring

theorem floorLog2Aux_le (fuel : Nat) :
    ∀ n : Nat, 1 ≤ n → 2 ^ floorLog2Aux fuel n ≤ n := by
  induction fuel with
  | zero =>
    intro n hn
    simpa [floorLog2Aux] using hn
  | succ fuel ih =>
    intro n hn
    by_cases h1 : n ≤ 1
    · simpa [floorLog2Aux, h1] using hn
    · have hrec := ih (n / 2) (by omega)
      simp only [floorLog2Aux, h1, if_false]
      calc 2 ^ (floorLog2Aux fuel (n / 2) + 1)
          = 2 * 2 ^ floorLog2Aux fuel (n / 2) := by rw [Nat.pow_succ]; ring
        _ ≤ 2 * (n / 2) := by omega
        _ ≤ n := by omega

theorem floorLog2_lt (n : Nat) (hn : n < 2 ^ 64) :
    n < 2 ^ (floorLog2 n + 1) :=
  floorLog2Aux_lt usizeBits n hn

theorem floorLog2_le (n : Nat) (hn : 1 ≤ n) : 2 ^ floorLog2 n ≤ n :=
  floorLog2Aux_le usizeBits n hn

theorem floorLog2_pow (j : Nat) (hj : j ≤ 63) : floorLog2 (2 ^ j) = j := by
  have hpos : 1 ≤ 2 ^ j := Nat.one_le_two_pow
  have hlt : (2 : Nat) ^ j < 2 ^ 64 :=
    Nat.pow_lt_pow_right (by omega) (by omega)
  have h1 := floorLog2_le (2 ^ j) hpos
  have h2 := floorLog2_lt (2 ^ j) hlt
  have hle : floorLog2 (2 ^ j) ≤ j :=
    (Nat.pow_le_pow_iff_right (by omega : 1 < 2)).mp h1
  have hge : j ≤ floorLog2 (2 ^ j) := by
    have := (Nat.pow_lt_pow_iff_right (by omega : 1 < 2)).mp h2
    omega
  omega

theorem floorLog2_le_of_lt_pow {n k : Nat} (hk : n < 2 ^ (k + 1)) :
    floorLog2 n ≤ k := by
  by_cases h0 : n = 0
  · simp [h0, floorLog2, floorLog2Aux, usizeBits]
  · have h1 := floorLog2_le n (by omega)
    have : (2 : Nat) ^ floorLog2 n < 2 ^ (k + 1) := by omega
    have := (Nat.pow_lt_pow_iff_right (by omega : 1 < 2)).mp this
    omega

/-! ## Facts about `nextPowerOfTwo` -/

theorem le_nextPowerOfTwo {n : Nat} (hn : n ≤ 2 ^ 64) : n ≤ nextPowerOfTwo n := by
  by_cases h1 : n ≤ 1
  · rw [nextPowerOfTwo, if_pos h1]
    exact h1
  · have hlt : n - 1 < 2 ^ 64 := by omega
    have := floorLog2_lt (n - 1) hlt
    simp only [nextPowerOfTwo, h1, if_false]
    omega

theorem nextPowerOfTwo_isPow (n : Nat) : ∃ j, nextPowerOfTwo n = 2 ^ j := by
  by_cases h1 : n ≤ 1
  · exact ⟨0, by simp [nextPowerOfTwo, h1]⟩
  · exact ⟨floorLog2 (n - 1) + 1, by simp [nextPowerOfTwo, h1]⟩

theorem nextPowerOfTwo_le_pow {n k : Nat} (hk : 1 ≤ k) (hk63 : k ≤ 63)
    (hn : n ≤ 2 ^ k) : nextPowerOfTwo n ≤ 2 ^ k := by
  by_cases h1 : n ≤ 1
  · simp only [nextPowerOfTwo, h1, if_true]
    exact Nat.one_le_two_pow
  · have hlt : n - 1 < 2 ^ ((k - 1) + 1) := by
      have : (k - 1) + 1 = k := by omega
      rw [this]; omega
    have hlog : floorLog2 (n - 1) ≤ k - 1 := floorLog2_le_of_lt_pow hlt
    simp only [nextPowerOfTwo, h1, if_false]
    exact Nat.pow_le_pow_right (by omega) (by omega)

/-! ## Characterising `calculate_lb_metadata_array_size` -/

theorem clamp_eq : usizeMax / 2 - (arraySize - 1) = 2 ^ 63 - 32 := by
  norm_num [usizeMax, arraySize]

theorem adjusted_capacity_le (c : Nat) : adjusted_capacity c ≤ 2 ^ 63 - 32 := by
  rw [adjusted_capacity, clamp_eq]
  exact Nat.min_le_right _ _

theorem required_cells_le (c : Nat) : required_cells c ≤ 2 ^ 58 := by
  have hadj := adjusted_capacity_le c
  have h32 : arraySize = 32 := rfl
  have hceil : (adjusted_capacity c + (arraySize - 1)) / arraySize ≤ 2 ^ 58 := by
    rw [h32]
    omega
  exact nextPowerOfTwo_le_pow (by omega) (by omega) hceil

theorem calculate_lb_eq (c : Nat) :
    ∃ j, j ≤ 58 ∧ required_cells c = 2 ^ j ∧
      calculate_lb_metadata_array_size c = max j 1 := by
  obtain ⟨j, hj⟩ :=
    nextPowerOfTwo_isPow ((adjusted_capacity c + (arraySize - 1)) / arraySize)
  have hrc : required_cells c = 2 ^ j := hj
  have hj58 : j ≤ 58 := by
    have hle := required_cells_le c
    rw [hrc] at hle
    exact (Nat.pow_le_pow_iff_right (by omega : 1 < 2)).mp hle
  refine ⟨j, hj58, hrc, ?_⟩
  have hpos : (2 : Nat) ^ j ≠ 0 := by positivity
  have hlz : leadingZeros (required_cells c) = 63 - j := by
    rw [hrc, leadingZeros, if_neg hpos, floorLog2_pow j (by omega)]
    unfold usizeBits
    omega
  rw [calculate_lb_metadata_array_size, hlz]
  have : usizeBits - (63 - j) - 1 = j := by
    unfold usizeBits
    omega
  rw [this]

theorem one_le_lb (c : Nat) : 1 ≤ calculate_lb_metadata_array_size c := by
  obtain ⟨j, _, _, hlb⟩ := calculate_lb_eq c
  rw [hlb]
  exact le_max_right _ _

theorem lb_le_58 (c : Nat) : calculate_lb_metadata_array_size c ≤ 58 := by
  obtain ⟨j, hj, _, hlb⟩ := calculate_lb_eq c
  rw [hlb]
  omega

theorem adjusted_le_num_entries (c : Nat) :
    adjusted_capacity c ≤ 2 ^ calculate_lb_metadata_array_size c * arraySize := by
  obtain ⟨j, hj, hrc, hlb⟩ := calculate_lb_eq c
  have hceil : (adjusted_capacity c + (arraySize - 1)) / arraySize ≤ 2 ^ j := by
    rw [← hrc]
    refine le_nextPowerOfTwo ?_
    have := adjusted_capacity_le c
    have h32 : arraySize = 32 := rfl
    rw [h32]
    omega
  have hpow : (2 : Nat) ^ j ≤ 2 ^ calculate_lb_metadata_array_size c := by
    rw [hlb]
    exact Nat.pow_le_pow_right (by omega) (le_max_left _ _)
  have h32 : arraySize = 32 := rfl
  rw [h32] at hceil ⊢
  omega

theorem le_num_entries_of {x : Nat} (hx : x ≤ 2 ^ 63) : x ≤ num_entries_of x := by
  by_cases hsm : x ≤ 2 ^ 63 - 32
  · have hadj : adjusted_capacity x = x := by
      rw [adjusted_capacity, clamp_eq]
      exact Nat.min_eq_left hsm
    have := adjusted_le_num_entries x
    rw [hadj] at this
    simpa [num_entries_of, num_cells] using this
  · have hadj : adjusted_capacity x = 2 ^ 63 - 32 := by
      rw [adjusted_capacity, clamp_eq]
      exact Nat.min_eq_right (by omega)
    have hrc : required_cells x = 2 ^ 58 := by
      rw [required_cells, hadj]
      decide
    have hlb : calculate_lb_metadata_array_size x = 58 := by
      rw [calculate_lb_metadata_array_size, hrc]
      decide
    rw [num_entries_of, num_cells, hlb]
    have : (2 : Nat) ^ 58 * arraySize = 2 ^ 63 := by decide
    omega

/-! ## Claim theorems about the array size calculation -/

/-- C10: `calculate_lb_metadata_array_size` clamps the requested capacity to
`usize::MAX / 2 - 31` (the `adjusted_capacity` conjunct restates the clamp);
for every input the returned exponent `lb` satisfies `1 ≤ lb < 64` and
`2 ^ lb * 32` is at least the clamped capacity `min capacity (usize::MAX / 2 - 31)`;
and for a request above the clamp (`usize::MAX`) the resulting capacity is
smaller than the request. -/
theorem lb_metadata_array_size_clamped_bounds :
    (∀ c, adjusted_capacity c = min c (usizeMax / 2 - (arraySize - 1)) ∧
      1 ≤ calculate_lb_metadata_array_size c ∧
      calculate_lb_metadata_array_size c < usizeBits ∧
      min c (usizeMax / 2 - (arraySize - 1)) ≤
        2 ^ calculate_lb_metadata_array_size c * arraySize) ∧
    num_entries_of usizeMax < usizeMax := by
  constructor
  · intro c
    refine ⟨rfl, one_le_lb c, ?_, ?_⟩
    · have := lb_le_58 c
      unfold usizeBits
      omega
    · have := adjusted_le_num_entries c
      rwa [adjusted_capacity] at this
  · decide

/-- C4 counterexample: at requested capacity `usize::MAX` the constructed map's
capacity is `2 ^ 63`, which is strictly below `max usize::MAX 64`, so the claim
"for every requested capacity, `capacity()` is at least `max(capacity, 64)`"
fails. -/
theorem new_capacity_max_counterexample :
    new_capacity usizeMax < max usizeMax 64 := by
  decide

/-- C4 (amended): for every requested capacity at most `2 ^ 63`,
`new(capacity, build_hasher)` yields a map whose capacity is at least
`max capacity 64` and equals `2 ^ k * 32` for some `k ≥ 1`, and `default()`
yields a map whose capacity is exactly 64. -/
theorem new_capacity_ge (c : Nat) (hc : c ≤ 2 ^ 63) :
    (max c 64 ≤ new_capacity c ∧
      ∃ k, 1 ≤ k ∧ new_capacity c = 2 ^ k * arraySize) ∧
    default_map_capacity = 64 := by
  refine ⟨⟨?_, ?_⟩, by decide⟩
  · have hd : default_capacity = 64 := rfl
    have hx : max c (64 : Nat) ≤ 2 ^ 63 := by omega
    have := le_num_entries_of hx
    rw [new_capacity, hd]
    exact this
  · exact ⟨calculate_lb_metadata_array_size (max c default_capacity),
      one_le_lb _, rfl⟩

/-- Witness for `new_capacity_ge` at requested capacity 1000 (the map's
capacity is then 1024, matching the example in src/hash_map.rs). -/
theorem new_capacity_ge_witness :
    (1000 : Nat) ≤ 2 ^ 63 ∧
    ((max 1000 64 ≤ new_capacity 1000 ∧
      ∃ k, 1 ≤ k ∧ new_capacity 1000 = 2 ^ k * arraySize) ∧
    default_map_capacity = 64) :=
  ⟨by decide, new_capacity_ge 1000 (by decide)⟩

/-- C5: for every 64-bit hash and every array built by
`calculate_lb_metadata_array_size`, the cell index is `hash >> (64 - lb)`,
i.e. the top `lb` bits of the hash (the division form), and it is strictly
below `num_cells`, so the conversion to `usize` cannot fail. -/
theorem metadata_array_index_lt (c hash : Nat) (hh : hash < 2 ^ 64) :
    calculate_metadata_array_index (calculate_lb_metadata_array_size c) hash =
      hash / 2 ^ (usizeBits - calculate_lb_metadata_array_size c) ∧
    calculate_metadata_array_index (calculate_lb_metadata_array_size c) hash <
      num_cells (calculate_lb_metadata_array_size c) := by
  have h58 := lb_le_58 c
  constructor
  · exact Nat.shiftRight_eq_div_pow hash _
  · rw [calculate_metadata_array_index, Nat.shiftRight_eq_div_pow, num_cells,
      Nat.div_lt_iff_lt_mul (Nat.pow_pos (by omega))]
    have hsum : calculate_lb_metadata_array_size c +
        (usizeBits - calculate_lb_metadata_array_size c) = 64 := by
      unfold usizeBits
      omega
    calc hash < 2 ^ 64 := hh
      _ = 2 ^ calculate_lb_metadata_array_size c *
            2 ^ (usizeBits - calculate_lb_metadata_array_size c) := by
          rw [← pow_add, hsum]

/-- Witness for `metadata_array_index_lt` at capacity 1000 and a concrete
64-bit hash. -/
theorem metadata_array_index_lt_witness :
    (123456789 : Nat) < 2 ^ 64 ∧
    (calculate_metadata_array_index (calculate_lb_metadata_array_size 1000)
        123456789 =
      123456789 / 2 ^ (usizeBits - calculate_lb_metadata_array_size 1000) ∧
    calculate_metadata_array_index (calculate_lb_metadata_array_size 1000)
        123456789 <
      num_cells (calculate_lb_metadata_array_size 1000)) :=
  ⟨by decide, metadata_array_index_lt 1000 123456789 (by decide)⟩

/-! ## `HashMap::retain` (src/hash_map.rs, lines 602-658)

The sweep over one array is embedded as a fold over the list of its live
entries in cell/slot order; the outer loop is driven by the list of arrays
that successive `self.array.load(Acquire)` calls return (an array is a pair of
an identity tag and its entries; in a quiescent run the list of future loads
is empty and every load returns the current array). The observed arrays carry
no old array, so the branch that drives `partial_rehash` while `old_array` is
non-null (lines 611-619) is never taken. The filter is pure: the
`&mut V` access the source hands to the caller does not change which entries
are counted or erased. `retain_async` (lines 675-756) duplicates the same
counter, reset, early-return and resize logic, so the one embedding covers
both. -/

/-- An array observed by `retain`: an identity tag (two loads return the same
array exactly when the tags agree) and its live entries in iteration order. -/
abbrev Snap (K V : Type) := Nat × List (K × V)

/-- The outcome of sweeping one array: the two counters, whether the
`usize::MAX` early-return path was taken, and the entries the array still
holds afterwards (`Locker::erase` removed the failing ones). -/
structure SweepResult (K V : Type) where
  retained : Nat
  removed : Nat
  aborted : Bool
  kept : List (K × V)
deriving DecidableEq

/-- The per-array sweep of `HashMap::retain` (lines 621-643): each entry is
tested by the filter, a counter is incremented, and if either counter has
reached `usize::MAX` the method gives up iteration at once. -/
def sweepEntries (filter : K → V → Bool) :
    List (K × V) → Nat → Nat → SweepResult K V
  | [], r, m => ⟨r, m, false, []⟩
  | e :: rest, r, m =>
    if filter e.1 e.2 then
      if r + 1 = usizeMax ∨ m = usizeMax then ⟨r + 1, m, true, e :: rest⟩
      else
        let s := sweepEntries filter rest (r + 1) m
        ⟨s.retained, s.removed, s.aborted, e :: s.kept⟩
    else
      if r = usizeMax ∨ m + 1 = usizeMax then ⟨r, m + 1, true, rest⟩
      else
        let s := sweepEntries filter rest r (m + 1)
        ⟨s.retained, s.removed, s.aborted, s.kept⟩

/-- The outcome of a whole `retain` call: the returned pair of counters,
whether `self.resize` was called after the sweep (lines 653-655), and whether
the `usize::MAX` early-return path (lines 637-640) ended the call. -/
structure RetainResult where
  retained : Nat
  removed : Nat
  resized : Bool
  aborted : Bool
deriving DecidableEq

/-- The array-level loop of `HashMap::retain` (lines 609-657): sweep the
current array; on the early return, exit with the counters as they stand and
without the resize check; otherwise reload the array, and if it changed,
reset `retained_entries` (but not `removed_entries`) to zero and restart on
the new array; once the reload returns the same array, perform the
`removed ≥ retained` resize check and return the counters. -/
def retainLoop (filter : K → V → Bool) :
    List (Snap K V) → Snap K V → Nat → Nat → RetainResult
  | future, cur, retained, removed =>
    let s := sweepEntries filter cur.2 retained removed
    if s.aborted then ⟨s.retained, s.removed, false, true⟩
    else
      match future with
      | [] => ⟨s.retained, s.removed, decide (s.retained ≤ s.removed), false⟩
      | next :: rest =>
        if next.1 = cur.1 then
          ⟨s.retained, s.removed, decide (s.retained ≤ s.removed), false⟩
        else retainLoop filter rest next 0 s.removed

/-- `HashMap::retain`: both counters start at zero on the first observed
array. -/
def retainHM (filter : K → V → Bool) (first : Snap K V)
    (future : List (Snap K V)) : RetainResult :=
  retainLoop filter future first 0 0

/-- Modelled from the spec: `HashMap::len` calls `HashTable::num_entries`
(hash_table.rs, not under src/), which scans the whole array and counts the
valid entries, so in the embedding it is the length of the entry list. -/
def lenHM (st : Snap K V) : Nat := st.2.length

/-- Entries of `es` the filter keeps. -/
def countRetained (filter : K → V → Bool) (es : List (K × V)) : Nat :=
  es.countP fun e => filter e.1 e.2

/-- Entries of `es` the filter rejects. -/
def countRemoved (filter : K → V → Bool) (es : List (K × V)) : Nat :=
  es.countP fun e => !filter e.1 e.2

/-! ## Sweep lemmas -/

theorem sweepEntries_eq (filter : K → V → Bool) :
    ∀ (es : List (K × V)) (r m : Nat),
      r + es.length < usizeMax → m + es.length < usizeMax →
      sweepEntries filter es r m =
        ⟨r + countRetained filter es, m + countRemoved filter es, false,
          es.filter fun e => filter e.1 e.2⟩ := by
  intro es
  induction es with
  | nil =>
    intro r m _ _
    simp [sweepEntries, countRetained, countRemoved]
  | cons e rest ih =>
    intro r m hr hm
    simp only [List.length_cons] at hr hm
    by_cases hb : filter e.1 e.2
    · have hcond : ¬(r + 1 = usizeMax ∨ m = usizeMax) := by
        push_neg
        omega
      rw [sweepEntries]
      simp only [hb, if_true, hcond, if_false]
      rw [ih (r + 1) m (by omega) (by omega)]
      simp [countRetained, countRemoved, List.countP_cons, List.filter_cons, hb]
      omega
    · have hcond : ¬(r = usizeMax ∨ m + 1 = usizeMax) := by
        push_neg
        omega
      rw [sweepEntries]
      simp only [hb, if_false, hcond]
      rw [ih r (m + 1) (by omega) (by omega)]
      simp [countRetained, countRemoved, List.countP_cons, List.filter_cons, hb]
      omega

theorem sweepEntries_true (es : List (K × V)) :
    ∀ r m : Nat, r + es.length ≤ usizeMax → m < usizeMax →
      (sweepEntries (fun _ _ => true) es r m).retained = r + es.length ∧
      (sweepEntries (fun _ _ => true) es r m).removed = m ∧
      (sweepEntries (fun _ _ => true) es r m).kept = es := by
  induction es with
  | nil =>
    intro r m _ _
    simp [sweepEntries]
  | cons e rest ih =>
    intro r m hr hm
    simp only [List.length_cons] at hr
    by_cases hc : r + 1 = usizeMax ∨ m = usizeMax
    · have hr1 : r + 1 = usizeMax := by
        rcases hc with h | h
        · exact h
        · omega
      have hrest : rest = [] := by
        have : rest.length = 0 := by omega
        exact List.eq_nil_of_length_eq_zero this
      subst hrest
      simp [sweepEntries, hc]
    · rw [sweepEntries]
      simp only [if_true, hc, if_false]
      obtain ⟨h1, h2, h3⟩ := ih (r + 1) m (by omega) hm
      simp [h1, h2, h3]
      omega

theorem sweepEntries_le (filter : K → V → Bool) :
    ∀ (es : List (K × V)) (r m : Nat), r < usizeMax → m < usizeMax →
      ((sweepEntries filter es r m).retained ≤ usizeMax ∧
        (sweepEntries filter es r m).removed ≤ usizeMax) ∧
      ((sweepEntries filter es r m).aborted = false →
        (sweepEntries filter es r m).retained < usizeMax ∧
        (sweepEntries filter es r m).removed < usizeMax) := by
  intro es
  induction es with
  | nil =>
    intro r m hr hm
    simp only [sweepEntries]
    omega
  | cons e rest ih =>
    intro r m hr hm
    by_cases hb : filter e.1 e.2
    · by_cases hc : r + 1 = usizeMax ∨ m = usizeMax
      · rw [sweepEntries, if_pos hb, if_pos hc]
        refine ⟨⟨?_, ?_⟩, fun hab => ?_⟩
        · show r + 1 ≤ usizeMax
          omega
        · show m ≤ usizeMax
          omega
        · simp at hab
      · have hc' := hc
        push_neg at hc'
        rw [sweepEntries, if_pos hb, if_neg hc]
        exact ih (r + 1) m (by omega) hm
    · by_cases hc : r = usizeMax ∨ m + 1 = usizeMax
      · rw [sweepEntries, if_neg hb, if_pos hc]
        refine ⟨⟨?_, ?_⟩, fun hab => ?_⟩
        · show r ≤ usizeMax
          omega
        · show m + 1 ≤ usizeMax
          omega
        · simp at hab
      · have hc' := hc
        push_neg at hc'
        rw [sweepEntries, if_neg hb, if_neg hc]
        exact ih r (m + 1) hr (by omega)

/-! ## Loop lemmas and claim theorems about `retain` -/

theorem retainLoop_le (filter : K → V → Bool) :
    ∀ (future : List (Snap K V)) (cur : Snap K V) (r m : Nat),
      r < usizeMax → m < usizeMax →
      ((retainLoop filter future cur r m).retained ≤ usizeMax ∧
        (retainLoop filter future cur r m).removed ≤ usizeMax) ∧
      ((retainLoop filter future cur r m).aborted = true →
        (retainLoop filter future cur r m).resized = false) := by
  intro future
  induction future with
  | nil =>
    intro cur r m hr hm
    obtain ⟨⟨h1, h2⟩, h3⟩ := sweepEntries_le filter cur.2 r m hr hm
    rw [retainLoop]
    by_cases ha : (sweepEntries filter cur.2 r m).aborted
    · rw [if_pos ha]
      exact ⟨⟨h1, h2⟩, fun _ => rfl⟩
    · rw [if_neg ha]
      exact ⟨⟨h1, h2⟩, fun hab => by simp at hab⟩
  | cons next rest ih =>
    intro cur r m hr hm
    obtain ⟨⟨h1, h2⟩, h3⟩ := sweepEntries_le filter cur.2 r m hr hm
    rw [retainLoop]
    by_cases ha : (sweepEntries filter cur.2 r m).aborted
    · rw [if_pos ha]
      exact ⟨⟨h1, h2⟩, fun _ => rfl⟩
    · rw [if_neg ha]
      by_cases hid : next.1 = cur.1
      · rw [if_pos hid]
        exact ⟨⟨h1, h2⟩, fun hab => by simp at hab⟩
      · rw [if_neg hid]
        obtain ⟨hlt1, hlt2⟩ := h3 (by simpa using ha)
        exact ih next 0 (sweepEntries filter cur.2 r m).removed (by
          have : (0 : Nat) < usizeMax := by decide
          exact this) hlt2

theorem retainLoop_resized (filter : K → V → Bool) :
    ∀ (future : List (Snap K V)) (cur : Snap K V) (r m : Nat),
      (retainLoop filter future cur r m).aborted = false →
      ((retainLoop filter future cur r m).resized = true ↔
        (retainLoop filter future cur r m).retained ≤
          (retainLoop filter future cur r m).removed) := by
  intro future
  induction future with
  | nil =>
    intro cur r m h
    rw [retainLoop] at h ⊢
    by_cases ha : (sweepEntries filter cur.2 r m).aborted
    · rw [if_pos ha] at h
      simp at h
    · rw [if_neg ha]
      exact decide_eq_true_iff
  | cons next rest ih =>
    intro cur r m h
    rw [retainLoop] at h ⊢
    by_cases ha : (sweepEntries filter cur.2 r m).aborted
    · rw [if_pos ha] at h
      simp at h
    · rw [if_neg ha] at h ⊢
      by_cases hid : next.1 = cur.1
      · rw [if_pos hid]
        exact decide_eq_true_iff
      · rw [if_neg hid] at h ⊢
        exact ih next 0 (sweepEntries filter cur.2 r m).removed h

/-- C2: when `retain` observes that the array changed during its sweep
(the second load returns an array with a different identity), it resets the
retained counter to zero and restarts on the new array but keeps the removed
counter, so the returned pair is (retained on the final pass, removals summed
across the discarded pass and the final pass). `retain_async` duplicates the
same counter logic. -/
theorem retain_resets_retained_not_removed (filter : K → V → Bool)
    (a b : Snap K V) (hid : a.1 ≠ b.1)
    (hlen : a.2.length + b.2.length < usizeMax) :
    retainHM filter a [b] =
      ⟨countRetained filter b.2,
        countRemoved filter a.2 + countRemoved filter b.2,
        decide (countRetained filter b.2 ≤
          countRemoved filter a.2 + countRemoved filter b.2),
        false⟩ := by
  have hremA : countRemoved filter a.2 ≤ a.2.length :=
    List.countP_le_length _
  have hA := sweepEntries_eq filter a.2 0 0 (by omega) (by omega)
  have hB := sweepEntries_eq filter b.2 0 (countRemoved filter a.2)
    (by omega) (by omega)
  rw [retainHM, retainLoop, hA]
  simp only [Nat.zero_add]
  rw [if_neg (by simp : ¬(false = true))]
  rw [if_neg (Ne.symm hid)]
  rw [retainLoop, hB]
  rw [if_neg (by simp : ¬(false = true))]
  simp

/-- Witness for `retain_resets_retained_not_removed`: two passes over concrete
arrays with identities 0 and 1. -/
theorem retain_resets_retained_not_removed_witness :
    ((0 : Nat) ≠ 1 ∧ (2 : Nat) + 1 < usizeMax) ∧
    retainHM (fun k (_ : Nat) => decide (k = 2)) (0, [(1, 10), (2, 20)])
        [(1, [(2, 20)])] =
      ⟨countRetained (fun k (_ : Nat) => decide (k = 2)) [(2, 20)],
        countRemoved (fun k (_ : Nat) => decide (k = 2)) [(1, 10), (2, 20)] +
          countRemoved (fun k (_ : Nat) => decide (k = 2)) [(2, 20)],
        decide (countRetained (fun k (_ : Nat) => decide (k = 2)) [(2, 20)] ≤
          countRemoved (fun k (_ : Nat) => decide (k = 2)) [(1, 10), (2, 20)] +
            countRemoved (fun k (_ : Nat) => decide (k = 2)) [(2, 20)]),
        false⟩ :=
  ⟨⟨by decide, by decide⟩,
    retain_resets_retained_not_removed _ _ _ (by decide) (by decide)⟩

/-- C6: in a quiescent state (every reload returns the same array), `retain`
with an always-true predicate erases nothing and returns exactly
`(len(), 0)`. -/
theorem retain_true_returns_len (st : Snap K V)
    (h : st.2.length ≤ usizeMax) :
    ((retainHM (fun _ _ => true) st []).retained,
      (retainHM (fun _ _ => true) st []).removed) = (lenHM st, 0) ∧
    (sweepEntries (fun _ _ => true) st.2 0 0).kept = st.2 := by
  obtain ⟨h1, h2, h3⟩ := sweepEntries_true st.2 0 0 (by omega) (by decide)
  refine ⟨?_, h3⟩
  rw [retainHM, retainLoop]
  by_cases ha : (sweepEntries (fun _ _ => true) st.2 0 0).aborted
  · rw [if_pos ha]
    simp [h1, h2, lenHM]
  · rw [if_neg ha]
    simp [h1, h2, lenHM]

/-- Witness for `retain_true_returns_len` on a concrete two-entry map. -/
theorem retain_true_returns_len_witness :
    ([(1, 10), (2, 20)] : List (Nat × Nat)).length ≤ usizeMax ∧
    (((retainHM (fun _ _ => true) ((0, [(1, 10), (2, 20)]) : Snap Nat Nat)
          []).retained,
      (retainHM (fun _ _ => true) ((0, [(1, 10), (2, 20)]) : Snap Nat Nat)
          []).removed) =
        (lenHM ((0, [(1, 10), (2, 20)]) : Snap Nat Nat), 0) ∧
    (sweepEntries (fun _ _ => true) [(1, 10), (2, 20)] 0 0).kept =
      [(1, 10), (2, 20)]) :=
  ⟨by decide, retain_true_returns_len (0, [(1, 10), (2, 20)]) (by decide)⟩

/-- C7: a `retain` call that completes its sweep (does not take the
`usize::MAX` early return) calls `resize` exactly when the number of removed
entries is at least the number of retained entries; in particular an empty
sweep (0 removed, 0 retained) requests a resize (see the witness). -/
theorem retain_resize_after_sweep (filter : K → V → Bool)
    (first : Snap K V) (future : List (Snap K V))
    (h : (retainHM filter first future).aborted = false) :
    (retainHM filter first future).resized = true ↔
      (retainHM filter first future).retained ≤
        (retainHM filter first future).removed :=
  retainLoop_resized filter future first 0 0 h

/-- Witness for `retain_resize_after_sweep`: on an empty quiescent map the
sweep retains and removes nothing and a resize is requested. -/
theorem retain_resize_after_sweep_witness :
    (retainHM (fun (_ : Nat) (_ : Nat) => true) (0, []) []).aborted = false ∧
    ((retainHM (fun (_ : Nat) (_ : Nat) => true) (0, []) []).resized = true ↔
      (retainHM (fun (_ : Nat) (_ : Nat) => true) (0, []) []).retained ≤
        (retainHM (fun (_ : Nat) (_ : Nat) => true) (0, []) []).removed) ∧
    (retainHM (fun (_ : Nat) (_ : Nat) => true) (0, []) []).resized = true ∧
    (retainHM (fun (_ : Nat) (_ : Nat) => true) (0, []) []).retained = 0 ∧
    (retainHM (fun (_ : Nat) (_ : Nat) => true) (0, []) []).removed = 0 :=
  ⟨by decide, retain_resize_after_sweep _ _ _ (by decide), by decide,
    by decide, by decide⟩

/-- C9: starting from counters below `usize::MAX` (as `retain` does, starting
from zero), the counters returned by the sweep loop never exceed
`usize::MAX`; when the early-return path is taken no resize is requested; and
as soon as a sweep hits a counter equal to `usize::MAX` the call returns at
once with the counters as they stand, skipping the remaining cells, the
remaining passes and the resize check. `retain_async` duplicates the same
guard. -/
theorem retain_overflow_guard (filter : K → V → Bool)
    (future : List (Snap K V)) (cur : Snap K V) (r m : Nat)
    (hr : r < usizeMax) (hm : m < usizeMax) :
    ((retainLoop filter future cur r m).retained ≤ usizeMax ∧
      (retainLoop filter future cur r m).removed ≤ usizeMax) ∧
    ((retainLoop filter future cur r m).aborted = true →
      (retainLoop filter future cur r m).resized = false) ∧
    ((sweepEntries filter cur.2 r m).aborted = true →
      retainLoop filter future cur r m =
        ⟨(sweepEntries filter cur.2 r m).retained,
          (sweepEntries filter cur.2 r m).removed, false, true⟩) := by
  obtain ⟨hbounds, habort⟩ := retainLoop_le filter future cur r m hr hm
  refine ⟨hbounds, habort, fun hs => ?_⟩
  cases future with
  | nil =>
    rw [retainLoop, if_pos hs]
  | cons next rest =>
    rw [retainLoop, if_pos hs]

/-- Witness for `retain_overflow_guard`: the retained counter starts one
below `usize::MAX` and the single surviving entry pushes it to the limit, so
the call aborts with the counters as they stand and no resize. -/
theorem retain_overflow_guard_witness :
    (usizeMax - 1 < usizeMax ∧ (0 : Nat) < usizeMax) ∧
    (((retainLoop (fun (_ : Nat) (_ : Nat) => true) [] (0, [(5, 5)])
        (usizeMax - 1) 0).retained ≤ usizeMax ∧
      (retainLoop (fun (_ : Nat) (_ : Nat) => true) [] (0, [(5, 5)])
        (usizeMax - 1) 0).removed ≤ usizeMax) ∧
    ((retainLoop (fun (_ : Nat) (_ : Nat) => true) [] (0, [(5, 5)])
        (usizeMax - 1) 0).aborted = true →
      (retainLoop (fun (_ : Nat) (_ : Nat) => true) [] (0, [(5, 5)])
        (usizeMax - 1) 0).resized = false) ∧
    ((sweepEntries (fun (_ : Nat) (_ : Nat) => true) [(5, 5)]
        (usizeMax - 1) 0).aborted = true →
      retainLoop (fun (_ : Nat) (_ : Nat) => true) [] (0, [(5, 5)])
        (usizeMax - 1) 0 =
        ⟨(sweepEntries (fun (_ : Nat) (_ : Nat) => true) [(5, 5)]
            (usizeMax - 1) 0).retained,
          (sweepEntries (fun (_ : Nat) (_ : Nat) => true) [(5, 5)]
            (usizeMax - 1) 0).removed, false, true⟩)) :=
  ⟨⟨by decide, by decide⟩,
    retain_overflow_guard _ _ _ _ _ (by decide) (by decide)⟩

/-! ## `HashMap::reserve` and `Ticket` (src/hash_map.rs, lines 124-147 and
920-934)

The capacity bookkeeping is the pair `(minimum_capacity, additional_capacity)`.
In the quiescent single-caller embedding the `compare_exchange` succeeds on the
first attempt; whether `self.resize` is called is recorded as a `Bool`. -/

/-- The capacity-relevant state of a `HashMap`: the construction-time
`minimum_capacity` and the atomic `additional_capacity`. -/
structure MapCap where
  minimum : Nat
  additional : Nat
deriving DecidableEq

/-- A successful `reserve`: the updated state, the `increment` field of the
returned `Ticket`, and whether `self.resize` ran. -/
structure ReserveOk where
  state : MapCap
  increment : Nat
  resized : Bool
deriving DecidableEq

/-- `HashMap::reserve` (lines 124-147): returns `None` when
`usize::MAX - minimum_capacity - additional_capacity <= capacity`; otherwise
adds `capacity` to `additional_capacity`, calls `resize` and hands out a
`Ticket` carrying `increment = capacity`. -/
def reserveHM (s : MapCap) (capacity : Nat) : Option ReserveOk :=
  if usizeMax - s.minimum - s.additional ≤ capacity then none
  else some ⟨⟨s.minimum, s.additional + capacity⟩, capacity, true⟩

/-- `Ticket::drop` (lines 920-934): `fetch_sub` the increment from
`additional_capacity`, then call `resize`. -/
def ticketDropHM (s : MapCap) (increment : Nat) : MapCap × Bool :=
  (⟨s.minimum, s.additional - increment⟩, true)

/-- C1 counterexample: with `minimum = 64`, `additional = 0` and
`n = usize::MAX - 64` the sum `minimum + additional + n` equals `usize::MAX`
(it does not exceed it), yet `reserve` returns `None` — the source tests
`usize::MAX - minimum - additional <= capacity`, not `<`. -/
theorem reserve_boundary_counterexample :
    reserveHM ⟨64, 0⟩ (usizeMax - 64) = none ∧
    64 + 0 + (usizeMax - 64) ≤ usizeMax := by
  constructor
  · decide
  · decide

/-- C1 (amended): `reserve(n)` returns `None` exactly when
`minimum + additional + n ≥ usize::MAX`; otherwise it adds `n` to
`additional_capacity`, triggers a resize and returns a `Ticket` carrying
`n`. -/
theorem reserve_none_iff (s : MapCap) (n : Nat)
    (hinv : s.minimum + s.additional ≤ usizeMax) :
    (reserveHM s n = none ↔ usizeMax ≤ s.minimum + s.additional + n) ∧
    (s.minimum + s.additional + n < usizeMax →
      reserveHM s n = some ⟨⟨s.minimum, s.additional + n⟩, n, true⟩) := by
  constructor
  · constructor
    · intro h
      by_contra hlt
      rw [reserveHM, if_neg (by omega)] at h
      exact Option.some_ne_none _ h
    · intro h
      rw [reserveHM, if_pos (by omega)]
  · intro h
    rw [reserveHM, if_neg (by omega)]

/-- Witness for `reserve_none_iff` in the state of a freshly built default
map (`minimum = 64`, `additional = 0`) with `n = 10000`. -/
theorem reserve_none_iff_witness :
    (64 + 0 ≤ usizeMax) ∧
    ((reserveHM ⟨64, 0⟩ 10000 = none ↔ usizeMax ≤ 64 + 0 + 10000) ∧
    (64 + 0 + 10000 < usizeMax →
      reserveHM ⟨64, 0⟩ 10000 = some ⟨⟨64, 0 + 10000⟩, 10000, true⟩)) :=
  ⟨by decide, reserve_none_iff ⟨64, 0⟩ 10000 (by decide)⟩

/-- C8: for every accepted `n`, `reserve(n)` raises `additional_capacity` by
exactly `n` and triggers a resize, and dropping the returned `Ticket` lowers
`additional_capacity` by exactly `n` and triggers a resize, restoring the
prior state. -/
theorem reserve_then_drop (s : MapCap) (n : Nat)
    (h : s.minimum + s.additional + n < usizeMax) :
    reserveHM s n = some ⟨⟨s.minimum, s.additional + n⟩, n, true⟩ ∧
    ticketDropHM ⟨s.minimum, s.additional + n⟩ n = (s, true) := by
  constructor
  · rw [reserveHM, if_neg (by omega)]
  · rw [ticketDropHM]
    simp

/-- Witness for `reserve_then_drop` on a default map reserving 10000. -/
theorem reserve_then_drop_witness :
    (64 + 0 + 10000 < usizeMax) ∧
    (reserveHM ⟨64, 0⟩ 10000 = some ⟨⟨64, 0 + 10000⟩, 10000, true⟩ ∧
    ticketDropHM ⟨64, 0 + 10000⟩ 10000 = (⟨64, 0⟩, true)) :=
  ⟨by decide, reserve_then_drop ⟨64, 0⟩ 10000 (by decide)⟩

/-! ## `HashMap::insert` (src/hash_map.rs, lines 170-182) -/

/-- Modelled from the spec: `HashTable::insert_entry` and `Cell::search` live
in `hash_table.rs` and `cell.rs`, which are not under src/. Per the spec,
`insert` searches the key's cell for the key and, if present, hands back the
supplied pair as the error; otherwise it inserts the pair. The map's logical
contents are the association list of its entries, and a lookup finds the entry
whose key equals the searched key. -/
def searchHM [DecidableEq K] (m : List (K × V)) (k : K) : Option V :=
  (m.find? fun e => decide (e.1 = k)).map Prod.snd

/-- Modelled from the spec: `insert` returns the supplied pair (as `Err`) and
leaves the map unchanged when the key exists, and otherwise adds the pair and
returns no error (`Ok(())`). -/
def insertHM [DecidableEq K] (m : List (K × V)) (k : K) (v : V) :
    Option (K × V) × List (K × V) :=
  if (m.find? fun e => decide (e.1 = k)).isSome then (some (k, v), m)
  else (none, m ++ [(k, v)])

/-- C3: on a fresh map, `insert(k, v1)` succeeds and stores `(k, v1)`; a
second `insert(k, v2)` with the same key fails, handing back exactly the
supplied pair `(k, v2)`, and the value stored under `k` remains `v1`. -/
theorem insert_twice_same_key {K V : Type} [DecidableEq K] (k : K)
    (v1 v2 : V) :
    insertHM ([] : List (K × V)) k v1 = (none, [(k, v1)]) ∧
    insertHM [(k, v1)] k v2 = (some (k, v2), [(k, v1)]) ∧
    searchHM [(k, v1)] k = some v1 := by
  refine ⟨?_, ?_, ?_⟩
  · simp [insertHM]
  · simp [insertHM, List.find?]
  · simp [searchHM, List.find?]
